import Mathlib

set_option maxRecDepth 100000

/-!
Shallow embedding of the CHIP-8 emulator core (src/cpu.rs together with the
display/constants part of src/main.rs).

Conventions used throughout:
* machine bytes (u8) and words (u16) are modelled as ℕ, with an explicit
  2^8 / 2^16 wrap written at exactly the points where the Rust operation
  wraps (overflowing_add, overflowing_sub, shifts);
* fallible operations - Rust panics such as out-of-bounds indexing, stack
  overflow/underflow, the illegal-instruction handler and the modulo-by-zero
  in the timer cadence - return Option, with none marking the panic;
* the f64 clock-rate arithmetic of tick is modelled over ℚ; the Rust
  f64 round rounds half away from zero, which on the nonnegative values
  arising here agrees with the floor-of-plus-a-half definition below;
* the random byte drawn by the RND instruction is passed to tick as an
  explicit parameter.
-/

/-- DISPLAY_WIDTH constant of src/main.rs. -/
def DISPLAY_WIDTH : ℕ := 64

/-- DISPLAY_HEIGHT constant of src/main.rs. -/
def DISPLAY_HEIGHT : ℕ := 32

/-- PROGRAM_START constant of src/cpu.rs. -/
def PROGRAM_START : ℕ := 0x200

/-- The 64x32 boolean framebuffer of Chip8Display in src/main.rs. -/
abbrev Screen := Fin 32 → Fin 64 → Bool

/-- Chip8Display struct of src/main.rs: a screen of 32 rows of 64 pixels. -/
structure Chip8Display where
  screen : Screen

/-- Chip8Display::new - all pixels off. -/
def Chip8Display.new : Chip8Display := ⟨fun _ _ => false⟩

/-- Chip8Display::clear - all pixels off. -/
def Chip8Display.clear (_d : Chip8Display) : Chip8Display := ⟨fun _ _ => false⟩

/-- Entry i of byte_to_bools b (src/cpu.rs line 18): bit 7-i of the byte,
most significant bit first. -/
def byteBit (b : ℕ) (i : ℕ) : Bool := ((b >>> (7 - i)) &&& 1) != 0

/-- The Ram struct of src/cpu.rs: 4096 byte cells. -/
structure Ram where
  data : Fin 4096 → ℕ

/-- Reading data at a runtime address; a Rust index panic out of range is
modelled as none. -/
def ramGetF (ram : Fin 4096 → ℕ) (a : ℕ) : Option ℕ :=
  if h : a < 4096 then some (ram ⟨a, h⟩) else none

/-- Writing data at a runtime address; a Rust index panic out of range is
modelled as none. -/
def ramSetF (ram : Fin 4096 → ℕ) (a b : ℕ) : Option (Fin 4096 → ℕ) :=
  if h : a < 4096 then some (Function.update ram ⟨a, h⟩ b) else none

/-- Total read used only to describe values of cells already known to be
in range (out-of-range defaults to 0; never hit in the statements using it). -/
def ramD (ram : Fin 4096 → ℕ) (a : ℕ) : ℕ :=
  if h : a < 4096 then ram ⟨a, h⟩ else 0

/-- data[start..start+src.len()].copy_from_slice(&src): writes the bytes of
src at consecutive addresses from start.  Every call site is either
statically in range (Ram::new) or guarded by the slice bound check that is
modelled separately (load_rom), so the out-of-range skip branch is never
taken. -/
def copyFromSlice (data : Fin 4096 → ℕ) (start : ℕ) : List ℕ → (Fin 4096 → ℕ)
  | [] => data
  | b :: bs =>
    if h : start < 4096 then
      copyFromSlice (Function.update data ⟨start, h⟩ b) (start + 1) bs
    else
      copyFromSlice data (start + 1) bs

/-- Ram::new of src/cpu.rs lines 32-69: zero memory, then the sixteen
copy_from_slice writes exactly as in the source - including the two
successive writes to 15..20 (the second labelled digit 4) and the jump from
60..65 (labelled digit D) to 70..75 (labelled digit E). -/
def Ram.new : Ram :=
  let d0 : Fin 4096 → ℕ := fun _ => 0
  let d1 := copyFromSlice d0 0 [0xF0, 0x90, 0x90, 0x90, 0xF0]
  let d2 := copyFromSlice d1 5 [0x20, 0x60, 0x20, 0x20, 0x70]
  let d3 := copyFromSlice d2 10 [0xF0, 0x10, 0xF0, 0x80, 0xF0]
  let d4 := copyFromSlice d3 15 [0xF0, 0x10, 0xF0, 0x10, 0xF0]
  let d5 := copyFromSlice d4 15 [0x90, 0x90, 0xF0, 0x10, 0x10]
  let d6 := copyFromSlice d5 20 [0xF0, 0x80, 0xF0, 0x10, 0xF0]
  let d7 := copyFromSlice d6 25 [0xF0, 0x80, 0xF0, 0x90, 0xF0]
  let d8 := copyFromSlice d7 30 [0xF0, 0x10, 0x20, 0x40, 0x40]
  let d9 := copyFromSlice d8 35 [0xF0, 0x90, 0xF0, 0x90, 0xF0]
  let d10 := copyFromSlice d9 40 [0xF0, 0x90, 0xF0, 0x10, 0xF0]
  let d11 := copyFromSlice d10 45 [0xF0, 0x90, 0xF0, 0x90, 0x90]
  let d12 := copyFromSlice d11 50 [0xE0, 0x90, 0xE0, 0x90, 0xE0]
  let d13 := copyFromSlice d12 55 [0xF0, 0x80, 0x80, 0x80, 0xF0]
  let d14 := copyFromSlice d13 60 [0xE0, 0x90, 0xE0, 0x90, 0xE0]
  let d15 := copyFromSlice d14 70 [0xF0, 0x80, 0xF0, 0x80, 0xF0]
  let d16 := copyFromSlice d15 75 [0xF0, 0x80, 0xF0, 0x80, 0x80]
  ⟨d16⟩

/-- The Cpu struct of src/cpu.rs.  clock_speed (f64 in the source) is a
rational here. -/
structure Cpu where
  v : Fin 16 → ℕ
  stack : Fin 16 → ℕ
  dt : ℕ
  st : ℕ
  ram : Ram
  display : Chip8Display
  pc : ℕ
  sp : ℕ
  i : ℕ
  cycle : ℕ
  clock_speed : ℚ
  pressed_keys : Fin 16 → Bool
  hold_flag : Bool
  inst : ℕ

/-- Cpu::new of src/cpu.rs lines 128-145. -/
def Cpu.new (clock_speed : ℚ) : Cpu where
  v := fun _ => 0
  stack := fun _ => 0
  dt := 0
  st := 0
  ram := Ram.new
  display := Chip8Display.new
  pc := PROGRAM_START
  sp := 0
  i := 0
  cycle := 0
  clock_speed := clock_speed
  pressed_keys := fun _ => false
  hold_flag := false
  inst := 0

theorem lowNib_lt (a : ℕ) : a &&& 0x0F < 16 :=
  lt_of_le_of_lt Nat.and_le_right (by norm_num)

theorem hiNib_lt (a : ℕ) : (a &&& 0xF0) >>> 4 < 16 := by
  have h1 : a &&& 0xF0 ≤ 0xF0 := Nat.and_le_right
  have h2 : (a &&& 0xF0) >>> 4 = (a &&& 0xF0) / 2 ^ 4 := Nat.shiftRight_eq_div_pow _ _
  omega

theorem instXNib_lt (a : ℕ) : (a &&& 0x0F00) >>> 8 < 16 := by
  have h1 : a &&& 0x0F00 ≤ 0x0F00 := Nat.and_le_right
  have h2 : (a &&& 0x0F00) >>> 8 = (a &&& 0x0F00) / 2 ^ 8 := Nat.shiftRight_eq_div_pow _ _
  omega

/-- The register index inst_hi & 0x0F extracted in the dispatch arms of tick. -/
def xNib (hi : ℕ) : Fin 16 := ⟨hi &&& 0x0F, lowNib_lt hi⟩

/-- The register index (inst_lo & 0xF0) >> 4 extracted in the dispatch arms
of tick. -/
def yNib (lo : ℕ) : Fin 16 := ⟨(lo &&& 0xF0) >>> 4, hiNib_lt lo⟩

/-- The register index (inst & 0x0F00) >> 8 recovered from the stalled
instruction in the hold branch of tick (src/cpu.rs line 396). -/
def instX (inst : ℕ) : Fin 16 := ⟨(inst &&& 0x0F00) >>> 8, instXNib_lt inst⟩

/-- get_pressed_key of src/cpu.rs line 197: position of the first held key. -/
def get_pressed_key (keys : Fin 16 → Bool) : Option (Fin 16) :=
  (List.finRange 16).find? (fun k => keys k)

/-- stack_pop of src/cpu.rs lines 204-212: underflow at sp = 0 panics
(none); otherwise decrement sp and read the slot. -/
def Cpu.stack_pop (s : Cpu) : Option (ℕ × Cpu) :=
  if s.sp = 0 then none
  else if h : s.sp - 1 < 16 then
    some (s.stack ⟨s.sp - 1, h⟩, { s with sp := s.sp - 1 })
  else none

/-- stack_push of src/cpu.rs lines 216-223: overflow at sp = 16 panics
(none); otherwise write the slot and increment sp.  The second guard models
the index panic for sp > 16, unreachable from the maintained states. -/
def Cpu.stack_push (s : Cpu) (val : ℕ) : Option Cpu :=
  if s.sp = 16 then none
  else if h : s.sp < 16 then
    some { s with stack := Function.update s.stack ⟨s.sp, h⟩ val, sp := s.sp + 1 }
  else none

/-- update_timers of src/cpu.rs lines 253-260: saturating decrement of both
timers. -/
def Cpu.update_timers (s : Cpu) : Cpu :=
  let s1 := if s.dt > 0 then { s with dt := s.dt - 1 } else s
  if s1.st > 0 then { s1 with st := s1.st - 1 } else s1

/-- sleep of src/cpu.rs line 415: idle, counting the cycle. -/
def Cpu.sleep (s : Cpu) : Cpu := { s with cycle := s.cycle + 1 }

/-- sys of src/cpu.rs line 429: jump to the 12-bit address. -/
def Cpu.sys (s : Cpu) (addr : ℕ) : Cpu := { s with pc := addr }

/-- cls of src/cpu.rs line 434. -/
def Cpu.cls (s : Cpu) : Cpu := { s with display := s.display.clear }

/-- ret of src/cpu.rs line 440: pop the stack into PC. -/
def Cpu.ret (s : Cpu) : Option Cpu :=
  match s.stack_pop with
  | none => none
  | some (val, s1) => some { s1 with pc := val }

/-- jmp of src/cpu.rs line 446. -/
def Cpu.jmp (s : Cpu) (addrs : ℕ) : Cpu := { s with pc := addrs }

/-- call of src/cpu.rs line 450: push the current PC, then jump. -/
def Cpu.call (s : Cpu) (addrs : ℕ) : Option Cpu :=
  match s.stack_push s.pc with
  | none => none
  | some s1 => some { s1 with pc := addrs }

/-- se of src/cpu.rs line 456: skip when Vx = kk. -/
def Cpu.se (s : Cpu) (vx : Fin 16) (byte : ℕ) : Cpu :=
  if s.v vx = byte then { s with pc := s.pc + 2 } else s

/-- sne of src/cpu.rs line 463: skip when Vx differs from kk. -/
def Cpu.sne (s : Cpu) (vx : Fin 16) (byte : ℕ) : Cpu :=
  if s.v vx ≠ byte then { s with pc := s.pc + 2 } else s

/-- sexy of src/cpu.rs line 470: skip when Vx = Vy. -/
def Cpu.sexy (s : Cpu) (vx vy : Fin 16) : Cpu :=
  if s.v vx = s.v vy then { s with pc := s.pc + 2 } else s

/-- ld of src/cpu.rs line 477. -/
def Cpu.ld (s : Cpu) (vx : Fin 16) (byte : ℕ) : Cpu :=
  { s with v := Function.update s.v vx byte }

/-- add of src/cpu.rs line 482: wrapping byte addition, flag untouched. -/
def Cpu.add (s : Cpu) (vx : Fin 16) (byte : ℕ) : Cpu :=
  { s with v := Function.update s.v vx ((s.v vx + byte) % 256) }

/-- ldxy of src/cpu.rs line 487. -/
def Cpu.ldxy (s : Cpu) (vx vy : Fin 16) : Cpu :=
  { s with v := Function.update s.v vx (s.v vy) }

/-- or of src/cpu.rs line 492. -/
def Cpu.or (s : Cpu) (vx vy : Fin 16) : Cpu :=
  { s with v := Function.update s.v vx (s.v vx ||| s.v vy) }

/-- and of src/cpu.rs line 497. -/
def Cpu.and (s : Cpu) (vx vy : Fin 16) : Cpu :=
  { s with v := Function.update s.v vx (s.v vx &&& s.v vy) }

/-- xor of src/cpu.rs line 502. -/
def Cpu.xor (s : Cpu) (vx vy : Fin 16) : Cpu :=
  { s with v := Function.update s.v vx (s.v vx ^^^ s.v vy) }

/-- adc of src/cpu.rs lines 508-516: overflowing byte addition; VF is
written last (1 on carry), exactly as in the source. -/
def Cpu.adc (s : Cpu) (vx vy : Fin 16) : Cpu :=
  let sum := s.v vx + s.v vy
  let v1 := Function.update s.v vx (sum % 256)
  { s with v := Function.update v1 15 (if 256 ≤ sum then 1 else 0) }

/-- sub of src/cpu.rs lines 520-528: overflowing byte subtraction
Vx - Vy; the source then sets VF to 1 exactly when the subtraction
overflowed, i.e. when a borrow occurred (Vx < Vy). -/
def Cpu.sub (s : Cpu) (vx vy : Fin 16) : Cpu :=
  let carry := s.v vx < s.v vy
  let v1 := Function.update s.v vx ((s.v vx + 256 - s.v vy) % 256)
  { s with v := Function.update v1 15 (if carry then 1 else 0) }

/-- shr of src/cpu.rs lines 532-535: VF receives the low bit first, then
Vx is halved (reading Vx again after the VF write, as the source does). -/
def Cpu.shr (s : Cpu) (vx : Fin 16) : Cpu :=
  let v1 := Function.update s.v 15 (s.v vx &&& 0x01)
  { s with v := Function.update v1 vx (v1 vx >>> 1) }

/-- subn of src/cpu.rs lines 539-547: overflowing byte subtraction
Vy - Vx stored in Vx; VF is then set to 1 exactly when the subtraction
overflowed, i.e. when Vy < Vx. -/
def Cpu.subn (s : Cpu) (vx vy : Fin 16) : Cpu :=
  let carry := s.v vy < s.v vx
  let v1 := Function.update s.v vx ((s.v vy + 256 - s.v vx) % 256)
  { s with v := Function.update v1 15 (if carry then 1 else 0) }

/-- shl of src/cpu.rs lines 551-554: VF receives the high bit first, then
Vx is doubled with the u8 wrap (reading Vx again after the VF write). -/
def Cpu.shl (s : Cpu) (vx : Fin 16) : Cpu :=
  let v1 := Function.update s.v 15 ((s.v vx &&& 0x80) >>> 7)
  { s with v := Function.update v1 vx ((v1 vx <<< 1) % 256) }

/-- snexy of src/cpu.rs line 557. -/
def Cpu.snexy (s : Cpu) (vx vy : Fin 16) : Cpu :=
  if s.v vx ≠ s.v vy then { s with pc := s.pc + 2 } else s

/-- ldi of src/cpu.rs line 564. -/
def Cpu.ldi (s : Cpu) (addrs : ℕ) : Cpu := { s with i := addrs }

/-- jpv0 of src/cpu.rs line 569. -/
def Cpu.jpv0 (s : Cpu) (addrs : ℕ) : Cpu := { s with pc := addrs + s.v 0 }

/-- rnd of src/cpu.rs line 574; the random u8 drawn from the thread rng is
the explicit rand parameter. -/
def Cpu.rnd (s : Cpu) (vx : Fin 16) (byte rand : ℕ) : Cpu :=
  { s with v := Function.update s.v vx ((rand % 256) &&& byte) }

/-- skp of src/cpu.rs line 621. -/
def Cpu.skp (s : Cpu) (key : Fin 16) : Cpu :=
  if s.pressed_keys key then { s with pc := s.pc + 2 } else s

/-- sknp of src/cpu.rs line 628. -/
def Cpu.sknp (s : Cpu) (key : Fin 16) : Cpu :=
  if !s.pressed_keys key then { s with pc := s.pc + 2 } else s

/-- ldvdt of src/cpu.rs line 635. -/
def Cpu.ldvdt (s : Cpu) (vx : Fin 16) : Cpu :=
  { s with v := Function.update s.v vx s.dt }

/-- ldk of src/cpu.rs line 642: store the key value in Vx. -/
def Cpu.ldk (s : Cpu) (vx : Fin 16) (key : ℕ) : Cpu :=
  { s with v := Function.update s.v vx key }

/-- lddt of src/cpu.rs line 647. -/
def Cpu.lddt (s : Cpu) (vx : Fin 16) : Cpu := { s with dt := s.v vx }

/-- ldst of src/cpu.rs line 652. -/
def Cpu.ldst (s : Cpu) (vx : Fin 16) : Cpu := { s with st := s.v vx }

/-- addi of src/cpu.rs line 657: overflowing u16 addition into I. -/
def Cpu.addi (s : Cpu) (vx : Fin 16) : Cpu :=
  { s with i := (s.i + s.v vx) % 65536 }

/-- ldsi of src/cpu.rs lines 663-669: I := 5 * Vx for a digit value,
panic (none) above 0xF. -/
def Cpu.ldsi (s : Cpu) (vx : Fin 16) : Option Cpu :=
  if s.v vx ≤ 0xF then some { s with i := 5 * s.v vx } else none

/-- ldbcd of src/cpu.rs lines 673-678.  The source computes the hundreds and
tens digits by f32 division and floor, which on byte values equals natural
division; all three writes go to the same address idx = I, exactly as in the
source. -/
def Cpu.ldbcd (s : Cpu) (vx : Fin 16) : Option Cpu :=
  let idx := s.i
  match ramSetF s.ram.data idx (s.v vx / 100) with
  | none => none
  | some r1 =>
    match ramSetF r1 idx ((s.v vx % 100) / 10) with
    | none => none
    | some r2 =>
      match ramSetF r2 idx (s.v vx % 10) with
      | none => none
      | some r3 => some { s with ram := ⟨r3⟩ }

/-- Loop body of cpvi: for each k in the list, ram[i0 + k] := v[k]. -/
def copyRegsToRam (v : Fin 16 → ℕ) (i0 : ℕ) (ram : Fin 4096 → ℕ) :
    List ℕ → Option (Fin 4096 → ℕ)
  | [] => some ram
  | k :: ks =>
    if hk : k < 16 then
      match ramSetF ram (i0 + k) (v ⟨k, hk⟩) with
      | none => none
      | some r2 => copyRegsToRam v i0 r2 ks
    else none

/-- cpvi of src/cpu.rs lines 682-686: copy V0..Vx to ram starting at I. -/
def Cpu.cpvi (s : Cpu) (vx : Fin 16) : Option Cpu :=
  match copyRegsToRam s.v s.i s.ram.data (List.range (vx.val + 1)) with
  | none => none
  | some r => some { s with ram := ⟨r⟩ }

/-- Loop body of ldiv: for each k in the list, v[k] := ram[i0 + k]. -/
def loadRegsFromRam (ram : Fin 4096 → ℕ) (i0 : ℕ) (v : Fin 16 → ℕ) :
    List ℕ → Option (Fin 16 → ℕ)
  | [] => some v
  | k :: ks =>
    if hk : k < 16 then
      match ramGetF ram (i0 + k) with
      | none => none
      | some b => loadRegsFromRam ram i0 (Function.update v ⟨k, hk⟩ b) ks
    else none

/-- ldiv of src/cpu.rs lines 689-693: load V0..Vx from ram starting at I. -/
def Cpu.ldiv (s : Cpu) (vx : Fin 16) : Option Cpu :=
  match loadRegsFromRam s.ram.data s.i s.v (List.range (vx.val + 1)) with
  | none => none
  | some v2 => some { s with v := v2 }

/-- ill of src/cpu.rs line 420: core dump and panic. -/
def Cpu.ill (_s : Cpu) : Option Cpu := none

/-- Reading a pixel at runtime coordinates; a Rust index panic out of range
is modelled as none. -/
def screenGet (scr : Screen) (y x : ℕ) : Option Bool :=
  if hy : y < 32 then
    if hx : x < 64 then some (scr ⟨y, hy⟩ ⟨x, hx⟩) else none
  else none

/-- Writing a pixel at runtime coordinates; a Rust index panic out of range
is modelled as none. -/
def screenSet (scr : Screen) (y x : ℕ) (b : Bool) : Option Screen :=
  if hy : y < 32 then
    if hx : x < 64 then
      some (Function.update scr ⟨y, hy⟩ (Function.update (scr ⟨y, hy⟩) ⟨x, hx⟩ b))
    else none
  else none

/-- The y-coordinate wrap of drw (src/cpu.rs lines 593-597): a single
subtraction of DISPLAY_HEIGHT when the sum reaches it. -/
def wrapY (vy i : ℕ) : ℕ :=
  if vy + i ≥ DISPLAY_HEIGHT then vy + i - DISPLAY_HEIGHT else vy + i

/-- The x-coordinate wrap of drw (src/cpu.rs lines 600-604): a single
subtraction of DISPLAY_WIDTH when the sum reaches it. -/
def wrapX (vx j : ℕ) : ℕ :=
  if vx + j ≥ DISPLAY_WIDTH then vx + j - DISPLAY_WIDTH else vx + j

/-- Innermost body of the drw loops (src/cpu.rs lines 605-609): raise the
collision flag when the current pixel and the sprite bit are both set, then
XOR the sprite bit into the pixel. -/
def drawBit (scr : Screen) (flag : Bool) (y x : ℕ) (bit : Bool) :
    Option (Screen × Bool) :=
  match screenGet scr y x with
  | none => none
  | some cur =>
    let flag1 := if cur && bit then true else flag
    match screenSet scr y x (Bool.xor cur bit) with
    | none => none
    | some scr1 => some (scr1, flag1)

/-- The inner j-loop of drw over the bits of one sprite byte. -/
def drwBits (vx y byte : ℕ) : List ℕ → Screen → Bool → Option (Screen × Bool)
  | [], scr, flag => some (scr, flag)
  | j :: js, scr, flag =>
    match drawBit scr flag y (wrapX vx j) (byteBit byte j) with
    | none => none
    | some (scr1, flag1) => drwBits vx y byte js scr1 flag1

/-- The outer i-loop of drw over the sprite rows: fetch the byte at I + i
from ram, then process its eight bits. -/
def drwRows (ram : Fin 4096 → ℕ) (i0 vx vy : ℕ) :
    List ℕ → Screen → Bool → Option (Screen × Bool)
  | [], scr, flag => some (scr, flag)
  | i :: is', scr, flag =>
    match ramGetF ram (i0 + i) with
    | none => none
    | some byte =>
      match drwBits vx (wrapY vy i) byte (List.range 8) scr flag with
      | none => none
      | some (scr1, flag1) => drwRows ram i0 vx vy is' scr1 flag1

/-- drw of src/cpu.rs lines 583-618: the guard n > 15 panics (unreachable
from the 4-bit field), the nested loops XOR the sprite into the screen, and
VF is set from the collision flag afterwards. -/
def Cpu.drw (s : Cpu) (vx vy : Fin 16) (n : ℕ) : Option Cpu :=
  if n > 15 then none
  else
    match drwRows s.ram.data s.i (s.v vx) (s.v vy) (List.range n)
        s.display.screen false with
    | none => none
    | some (scr, flag) =>
      some { s with display := ⟨scr⟩,
                    v := Function.update s.v 15 (if flag then 1 else 0) }

/-- The f64 round of the source on the nonnegative quotients arising in
tick: round half away from zero, i.e. the floor of the value plus one half. -/
def rustRound (q : ℚ) : ℤ := ⌊q + 1 / 2⌋

/-- The cycles_per_60hz computation of tick (src/cpu.rs line 407):
((1/60) / (1/clock)).round() as u64, over ℚ.  The toNat matches the as-u64
cast of the rounded nonnegative value. -/
def cadence (clock : ℚ) : ℕ := (rustRound ((1 / 60 : ℚ) / (1 / clock))).toNat

/-- The instruction dispatch of tick (src/cpu.rs lines 274-390), written as
a chain of tests on the high nibble of the high instruction byte; the arms
are those of the source match, in source order. -/
def Cpu.dispatch (s : Cpu) (rand inst_hi inst_lo : ℕ) : Option Cpu :=
  let nib := (inst_hi &&& 0xF0) >>> 4
  if nib = 0x0 then
    if inst_lo = 0xE0 then some s.cls
    else if inst_lo = 0xEE then s.ret
    else some (s.sys (s.inst &&& 0x0FFF))
  else if nib = 0x1 then some (s.jmp (s.inst &&& 0x0FFF))
  else if nib = 0x2 then s.call (s.inst &&& 0x0FFF)
  else if nib = 0x3 then some (s.se (xNib inst_hi) inst_lo)
  else if nib = 0x4 then some (s.sne (xNib inst_hi) inst_lo)
  else if nib = 0x5 then some (s.sexy (xNib inst_hi) (yNib inst_lo))
  else if nib = 0x6 then some (s.ld (xNib inst_hi) inst_lo)
  else if nib = 0x7 then some (s.add (xNib inst_hi) inst_lo)
  else if nib = 0x8 then
    let low := inst_lo &&& 0x0F
    if low = 0x0 then some (s.ldxy (xNib inst_hi) (yNib inst_lo))
    else if low = 0x1 then some (s.or (xNib inst_hi) (yNib inst_lo))
    else if low = 0x2 then some (s.and (xNib inst_hi) (yNib inst_lo))
    else if low = 0x3 then some (s.xor (xNib inst_hi) (yNib inst_lo))
    else if low = 0x4 then some (s.adc (xNib inst_hi) (yNib inst_lo))
    else if low = 0x5 then some (s.sub (xNib inst_hi) (yNib inst_lo))
    else if low = 0x6 then some (s.shr (xNib inst_hi))
    else if low = 0x7 then some (s.subn (xNib inst_hi) (yNib inst_lo))
    else if low = 0xE then some (s.shl (xNib inst_hi))
    else s.ill
  else if nib = 0x9 then some (s.snexy (xNib inst_hi) (yNib inst_lo))
  else if nib = 0xA then some (s.ldi (s.inst &&& 0x0FFF))
  else if nib = 0xB then some (s.jpv0 (s.inst &&& 0x0FFF))
  else if nib = 0xC then some (s.rnd (xNib inst_hi) inst_lo rand)
  else if nib = 0xD then s.drw (xNib inst_hi) (yNib inst_lo) (inst_lo &&& 0x0F)
  else if nib = 0xE then
    if inst_lo = 0x9E then some (s.skp (xNib inst_hi))
    else if inst_lo = 0xA1 then some (s.sknp (xNib inst_hi))
    else s.ill
  else if nib = 0xF then
    if inst_lo = 0x07 then some (s.ldvdt (xNib inst_hi))
    else if inst_lo = 0x0A then
      match get_pressed_key s.pressed_keys with
      | some key => some (s.ldk (xNib inst_hi) key.val)
      | none => some { s with hold_flag := true }
    else if inst_lo = 0x15 then some (s.lddt (xNib inst_hi))
    else if inst_lo = 0x18 then some (s.ldst (xNib inst_hi))
    else if inst_lo = 0x1E then some (s.addi (xNib inst_hi))
    else if inst_lo = 0x29 then s.ldsi (xNib inst_hi)
    else if inst_lo = 0x33 then s.ldbcd (xNib inst_hi)
    else if inst_lo = 0x55 then s.cpvi (xNib inst_hi)
    else if inst_lo = 0x65 then s.ldiv (xNib inst_hi)
    else s.ill
  else s.ill

/-- The per-cycle execution part of tick (src/cpu.rs lines 266-405): when
not holding, fetch the two instruction bytes (advancing PC after each),
record the combined instruction word and dispatch; when holding, either
consume the first held key into the register named by the stalled
instruction and clear the hold flag, or idle - and in both cases run the
extra sleep of line 404. -/
def Cpu.tickExec (s : Cpu) (rand : ℕ) : Option Cpu :=
  if !s.hold_flag then
    match ramGetF s.ram.data s.pc with
    | none => none
    | some inst_hi =>
      let s1 := { s with pc := s.pc + 1 }
      match ramGetF s1.ram.data s1.pc with
      | none => none
      | some inst_lo =>
        let s2 := { s1 with pc := s1.pc + 1 }
        let s3 := { s2 with inst := (inst_hi <<< 8) ||| inst_lo }
        s3.dispatch rand inst_hi inst_lo
  else
    let s1 :=
      match get_pressed_key s.pressed_keys with
      | some key => { s.ldk (instX s.inst) key.val with hold_flag := false }
      | none => s.sleep
    some s1.sleep

/-- The timer-cadence tail of tick (src/cpu.rs lines 406-411): recompute
cycles_per_60hz from the clock rate, decrement the timers when the running
cycle counter is a multiple of it, and count the cycle.  A zero cadence
makes the Rust modulo panic, modelled as none. -/
def Cpu.tickTimer (s : Cpu) : Option Cpu :=
  let cycles_per_60hz := cadence s.clock_speed
  if cycles_per_60hz = 0 then none
  else
    let s1 := if s.cycle % cycles_per_60hz = 0 then s.update_timers else s
    some { s1 with cycle := s1.cycle + 1 }

/-- tick of src/cpu.rs lines 264-412: execute, then the timer tail. -/
def Cpu.tick (s : Cpu) (rand : ℕ) : Option Cpu :=
  match s.tickExec rand with
  | none => none
  | some s1 => s1.tickTimer

/-- reset of src/cpu.rs lines 170-183: exactly the fields the source
resets (the instruction latch and the clock rate are kept). -/
def Cpu.reset (s : Cpu) : Cpu :=
  { s with v := fun _ => 0, stack := fun _ => 0, dt := 0, sp := 0,
           pc := PROGRAM_START, st := 0, i := 0, cycle := 0,
           pressed_keys := fun _ => false, hold_flag := false,
           display := Chip8Display.new, ram := Ram.new }

/-- load_rom of src/cpu.rs lines 186-193 with the ROM bytes already read:
reset, then copy the contents to ram starting at 0x200.  The Rust slicing
data[0x200..0x200+len] panics when the end exceeds the 4096-byte capacity,
modelled as none; no OutOfSpace error value exists in the source. -/
def Cpu.load_rom (s : Cpu) (contents : List ℕ) : Option Cpu :=
  let s1 := s.reset
  if 0x200 + contents.length ≤ 4096 then
    some { s1 with ram := ⟨copyFromSlice s1.ram.data 0x200 contents⟩ }
  else none

/-- State with V0 = 0x05 and V1 = 0x03, the canonical no-borrow subtract
test vector of the specification. -/
def subNoBorrowState : Cpu :=
  { Cpu.new 500 with v := fun k => if k = 0 then 0x05 else if k = 1 then 0x03 else 0 }

/-- State with V0 = 0x01 and V1 = 0x02, the canonical borrow subtract test
vector of the specification. -/
def subBorrowState : Cpu :=
  { Cpu.new 500 with v := fun k => if k = 0 then 0x01 else if k = 1 then 0x02 else 0 }

/-- Claim C1: the source stores the correct wrapped differences, but its VF
convention is the opposite of the claimed one.  With V0 = 5, V1 = 3 the
8xy5 subtract yields 2 with VF = 0 (the claim demands VF = 1, no borrow);
with V0 = 1, V1 = 2 it yields 0xFF with VF = 1 (the claim demands VF = 0);
and the reversed 8xy7 subtract on V0 = 1, V1 = 2 yields 1 with VF = 0 even
though V1 >= V0 (the claim demands VF = 1). -/
theorem sub_subn_flag_inverted :
    ((subNoBorrowState.sub 0 1).v 0 = 0x02 ∧ (subNoBorrowState.sub 0 1).v 15 = 0) ∧
    ((subBorrowState.sub 0 1).v 0 = 0xFF ∧ (subBorrowState.sub 0 1).v 15 = 1) ∧
    ((subBorrowState.subn 0 1).v 0 = 0x01 ∧ (subBorrowState.subn 0 1).v 15 = 0) := by
  decide

/-- State with V0 = 123 and I = 0x300, a BCD test vector. -/
def bcdState : Cpu :=
  { Cpu.new 500 with v := fun k => if k = 0 then 123 else 0, i := 0x300 }

/-- Claim C2: executing the BCD store of V0 = 123 with I = 0x300 leaves 3
(the ones digit, the last of the three writes all aimed at the same address
I) at address I, and 0 at I+1 and I+2 - not 1, 2, 3 as the claim states. -/
theorem ldbcd_writes_single_address :
    (bcdState.ldbcd 0).map
      (fun s => (ramD s.ram.data 0x300, ramD s.ram.data 0x301, ramD s.ram.data 0x302)) =
    some (3, 0, 0) := by
  decide

/-- State with V1 = 64, an off-screen y start coordinate for draw. -/
def drawOobState : Cpu :=
  { Cpu.new 500 with v := fun k => if k = 1 then 64 else 0 }

/-- Claim C3: the single-subtraction wrap of drw is not a modulo.  With
V1 = 64 the first sprite row computes wrapped row 64 - 32 = 32, which is out
of range for the 32-row framebuffer, so the draw instruction panics (none)
instead of wrapping. -/
theorem drw_wrap_out_of_range :
    drawOobState.drw 0 1 1 = none ∧ wrapY 64 0 = 32 ∧ DISPLAY_HEIGHT = 32 := by
  refine ⟨rfl, by decide, rfl⟩

/-- A zero cadence sends the timer tail of tick into the modulo-by-zero
panic. -/
theorem tickTimer_of_cadence_zero (s : Cpu) (h : cadence s.clock_speed = 0) :
    s.tickTimer = none := by
  unfold Cpu.tickTimer
  rw [h]
  simp

/-- The state reached by the execution part of the first tick of a freshly
constructed 20 Hz CPU: memory at 0x200 is zero, so the zero opcode is a SYS
jump to address 0. -/
def tick20State : Cpu :=
  { v := fun _ => 0, stack := fun _ => 0, dt := 0, st := 0, ram := Ram.new,
    display := Chip8Display.new, pc := 0, sp := 0, i := 0, cycle := 0,
    clock_speed := 20, pressed_keys := fun _ => false, hold_flag := false,
    inst := 0 }

/-- Claim C4: at the positive clock rate 20 Hz the cycles-per-tick value
round(20/60) computed by tick is 0, not at least 1, and the cycle-counter
modulo in tick therefore faults (Rust u64 modulo by zero panics). -/
theorem cadence_zero_fault :
    cadence 20 = 0 ∧ ((0 : ℚ) < 20) ∧ (Cpu.new 20).tick 0 = none := by
  have h20 : cadence 20 = 0 := by norm_num [cadence, rustRound]
  refine ⟨h20, by norm_num, ?_⟩
  have hexec : (Cpu.new 20).tickExec 0 = some tick20State := rfl
  have ht : (Cpu.new 20).tick 0 = tick20State.tickTimer := by
    simp only [Cpu.tick, hexec]
  rw [ht]
  exact tickTimer_of_cadence_zero _ h20

/-- Claim C5: after construction the five bytes from address 5*3 = 15 hold
the glyph written second to that range (the one the source labels digit 4),
not the digit-3 glyph 0xF0 0x10 0xF0 0x10 0xF0; and the range 65..69 (where
5*13 points) is all zero because the source writes the next glyph at 70..74.
The same holds after reset, which reinitialises ram with Ram::new. -/
theorem font_digit3_misplaced :
    Ram.new.data 15 = 0x90 ∧ Ram.new.data 16 = 0x90 ∧ Ram.new.data 17 = 0xF0 ∧
    Ram.new.data 18 = 0x10 ∧ Ram.new.data 19 = 0x10 ∧
    Ram.new.data 65 = 0 ∧ Ram.new.data 69 = 0 ∧ Ram.new.data 70 = 0xF0 ∧
    (Cpu.new 500).reset.ram.data 15 = 0x90 := by
  decide

/-- Claim C6: loading a 3585-byte ROM (one byte over the 4096 - 0x200
capacity) panics on the out-of-range slice (none) - no OutOfSpace error
value is ever returned to the caller - while a 3584-byte ROM loads. -/
theorem load_rom_oversize_panics :
    (Cpu.new 500).load_rom (List.replicate 3585 0) = none ∧
    ((Cpu.new 500).load_rom (List.replicate 3584 0)).isSome = true := by
  constructor
  · unfold Cpu.load_rom
    rw [List.length_replicate, if_neg (by norm_num)]
  · unfold Cpu.load_rom
    rw [List.length_replicate, if_pos (by norm_num)]
    rfl

/-- Total view of a stack-slot array (0 above the physical 16 slots; the
statements using it stay below 16). -/
def stackD (st : Fin 16 → ℕ) (k : ℕ) : ℕ := if h : k < 16 then st ⟨k, h⟩ else 0

/-- Executing a sequence of CALL instructions one after another, stopping
at the first fault. -/
def runCalls : List ℕ → Cpu → Option Cpu
  | [], s => some s
  | a :: rest, s =>
    match s.call a with
    | none => none
    | some s1 => runCalls rest s1

/-- Executing k RET instructions, recording the PC value produced by each
pop. -/
def runRets : ℕ → Cpu → Option (List ℕ × Cpu)
  | 0, s => some ([], s)
  | k + 1, s =>
    match s.ret with
    | none => none
    | some s1 =>
      match runRets k s1 with
      | none => none
      | some (l, s2) => some (s1.pc :: l, s2)

/-- Push phase: with room on the stack, a sequence of CALLs succeeds, the
stack pointer advances by the number of calls, the pushed slots hold the
return addresses (the starting PC followed by each call target except the
last), and the slots below the starting pointer are untouched. -/
theorem runCalls_ok (addrs : List ℕ) (s : Cpu) (hsp : s.sp + addrs.length ≤ 16) :
    ∃ s1, runCalls addrs s = some s1 ∧ s1.sp = s.sp + addrs.length ∧
      (∀ m, m < addrs.length → stackD s1.stack (s.sp + m) = (s.pc :: addrs).getD m 0) ∧
      (∀ k, k < s.sp → stackD s1.stack k = stackD s.stack k) := by
  induction addrs generalizing s with
  | nil =>
    refine ⟨s, rfl, by simp, ?_, fun k _ => rfl⟩
    intro m hm
    simp at hm
  | cons a rest ih =>
    simp only [List.length_cons] at hsp ⊢
    have hlt : s.sp < 16 := by omega
    have hne : ¬s.sp = 16 := by omega
    set s' : Cpu := ({ s with stack := Function.update s.stack ⟨s.sp, hlt⟩ s.pc, sp := s.sp + 1, pc := a } : Cpu) with hs'
    have hcall : s.call a = some s' := by
      unfold Cpu.call Cpu.stack_push
      rw [if_neg hne, dif_pos hlt]
    have hsp' : s'.sp + rest.length ≤ 16 := by
      simp only [hs']
      omega
    obtain ⟨s1, hrun, hsp1, hcont, hbelow⟩ := ih s' hsp'
    refine ⟨s1, ?_, ?_, ?_, ?_⟩
    · unfold runCalls
      rw [hcall]
      exact hrun
    · rw [hsp1]
      simp only [hs']
      omega
    · intro m hm
      cases m with
      | zero =>
        have h0 : s.sp < s'.sp := by
          simp only [hs']
          omega
        have hb := hbelow s.sp h0
        rw [Nat.add_zero, hb, List.getD_cons_zero]
        simp only [hs', stackD, dif_pos hlt]
        rw [Function.update_apply, if_pos rfl]
      | succ m' =>
        have hm' : m' < rest.length := by omega
        have harith : s.sp + (m' + 1) = s'.sp + m' := by
          simp only [hs']
          omega
        rw [harith, hcont m' hm', List.getD_cons_succ]
    · intro k hk
      have hk' : k < s'.sp := by
        simp only [hs']
        omega
      rw [hbelow k hk']
      simp only [hs', stackD]
      by_cases h16 : k < 16
      · rw [dif_pos h16, dif_pos h16, Function.update_apply, if_neg]
        intro heq
        rw [Fin.mk.injEq] at heq
        omega
      · rw [dif_neg h16, dif_neg h16]

/-- Pop phase: with k values on the stack, k RETs succeed and produce as
successive PC values the top k stack slots from the top downwards, leaving
the slot array unchanged and the pointer lowered by k. -/
theorem runRets_ok (k : ℕ) (s : Cpu) (hk : k ≤ s.sp) (hsp16 : s.sp ≤ 16) :
    ∃ s2, runRets k s =
        some ((List.range k).map (fun m => stackD s.stack (s.sp - 1 - m)), s2) ∧
      s2.sp = s.sp - k ∧ s2.stack = s.stack := by
  induction k generalizing s with
  | zero => exact ⟨s, by simp [runRets], by simp, rfl⟩
  | succ k ih =>
    have h0 : ¬s.sp = 0 := by omega
    have hlt : s.sp - 1 < 16 := by omega
    set s' : Cpu := { s with sp := s.sp - 1, pc := s.stack ⟨s.sp - 1, hlt⟩ } with hs'
    have hret : s.ret = some s' := by
      unfold Cpu.ret Cpu.stack_pop
      rw [if_neg h0, dif_pos hlt]
    have hk' : k ≤ s'.sp := by
      simp only [hs']
      omega
    have hsp16' : s'.sp ≤ 16 := by
      simp only [hs']
      omega
    obtain ⟨s2, hrun, hsp2, hstk2⟩ := ih s' hk' hsp16'
    have hpc : s'.pc = stackD s.stack (s.sp - 1) := by
      simp only [hs', stackD, dif_pos hlt]
    have hlist : (List.range (k + 1)).map (fun m => stackD s.stack (s.sp - 1 - m)) =
        s'.pc :: (List.range k).map (fun m => stackD s'.stack (s'.sp - 1 - m)) := by
      rw [List.range_succ_eq_map, List.map_cons, List.map_map]
      have htail : ((fun m => stackD s.stack (s.sp - 1 - m)) ∘ Nat.succ) =
          fun m => stackD s'.stack (s'.sp - 1 - m) := by
        funext m
        show stackD s.stack (s.sp - 1 - Nat.succ m) = stackD s'.stack (s'.sp - 1 - m)
        simp only [hs']
        congr 1
        omega
      rw [htail, hpc]
      simp
    refine ⟨s2, ?_, ?_, ?_⟩
    · unfold runRets
      simp only [hret, hrun, hlist]
    · rw [hsp2]
      simp only [hs']
      omega
    · rw [hstk2]

/-- Claim C7: from an empty stack, 16 CALLs succeed; a push at depth 16 is
the stack-overflow fault; 16 RETs pop the pushed return addresses into PC in
exact reverse order; and a pop at depth 0 is the stack-underflow fault. -/
theorem stack_discipline (s : Cpu) (addrs : List ℕ)
    (hsp : s.sp = 0) (hlen : addrs.length = 16) :
    ∃ s1, runCalls addrs s = some s1 ∧ s1.sp = 16 ∧
      (∀ a, s1.call a = none) ∧
      ∃ s2, runRets 16 s1 = some (((s.pc :: addrs).take 16).reverse, s2) ∧
        s2.sp = 0 ∧ s2.ret = none := by
  obtain ⟨s1, hrun, hsp1, hcont, _⟩ := runCalls_ok addrs s (by omega)
  have hsp1' : s1.sp = 16 := by omega
  refine ⟨s1, hrun, hsp1', ?_, ?_⟩
  · intro a
    unfold Cpu.call Cpu.stack_push
    rw [if_pos hsp1']
  · obtain ⟨s2, hrets, hsp2, _⟩ := runRets_ok 16 s1 (by omega) (by omega)
    have hlist : (List.range 16).map (fun m => stackD s1.stack (s1.sp - 1 - m)) =
        ((s.pc :: addrs).take 16).reverse := by
      apply List.ext_getElem
      · simp [hlen]
      · intro j hj1 hj2
        have hj : j < 16 := by simpa using hj1
        rw [List.getElem_map, List.getElem_range, List.getElem_reverse, List.getElem_take]
        have hc := hcont (15 - j) (by omega)
        rw [hsp, Nat.zero_add] at hc
        rw [List.getD_eq_getElem (s.pc :: addrs) 0 (by simp [hlen]; omega) ] at hc
        have hidx2 : s1.sp - 1 - j = 15 - j := by omega
        rw [hidx2]
        convert hc using 2
        simp [hlen]
    refine ⟨s2, ?_, by omega, ?_⟩
    · rw [hrets, hlist]
    · unfold Cpu.ret Cpu.stack_pop
      rw [if_pos (by omega : s2.sp = 0)]

/-- Sixteen concrete call targets for the stack-discipline witness. -/
def stackWitnessAddrs : List ℕ :=
  [0x300, 0x301, 0x302, 0x303, 0x304, 0x305, 0x306, 0x307,
   0x308, 0x309, 0x30A, 0x30B, 0x30C, 0x30D, 0x30E, 0x30F]

/-- Witness for stack_discipline: a fresh CPU with sixteen concrete call
targets. -/
theorem stack_discipline_witness :
    ∃ s1, runCalls stackWitnessAddrs (Cpu.new 500) = some s1 ∧ s1.sp = 16 ∧
      (∀ a, s1.call a = none) ∧
      ∃ s2, runRets 16 s1 =
          some ((((Cpu.new 500).pc :: stackWitnessAddrs).take 16).reverse, s2) ∧
        s2.sp = 0 ∧ s2.ret = none :=
  stack_discipline (Cpu.new 500) stackWitnessAddrs rfl rfl

/-- update_timers changes only the two timer registers. -/
theorem update_timers_keeps (s : Cpu) :
    s.update_timers.pc = s.pc ∧ s.update_timers.v = s.v ∧
      s.update_timers.hold_flag = s.hold_flag ∧ s.update_timers.inst = s.inst := by
  unfold Cpu.update_timers
  by_cases h1 : s.dt > 0 <;> by_cases h2 : s.st > 0 <;> simp [h1, h2]

/-- With a nonzero cadence the timer tail of tick succeeds and changes only
the timers and the cycle counter. -/
theorem tickTimer_fields (s : Cpu) (hc : ¬cadence s.clock_speed = 0) :
    ∃ s1, s.tickTimer = some s1 ∧ s1.pc = s.pc ∧ s1.v = s.v ∧
      s1.hold_flag = s.hold_flag ∧ s1.inst = s.inst := by
  by_cases h : s.cycle % cadence s.clock_speed = 0
  · refine ⟨{ s.update_timers with cycle := s.update_timers.cycle + 1 }, ?_, ?_, ?_, ?_, ?_⟩
    · simp only [Cpu.tickTimer]
      rw [if_neg hc, if_pos h]
    · exact (update_timers_keeps s).1
    · exact (update_timers_keeps s).2.1
    · exact (update_timers_keeps s).2.2.1
    · exact (update_timers_keeps s).2.2.2
  · refine ⟨{ s with cycle := s.cycle + 1 }, ?_, rfl, rfl, rfl, rfl⟩
    simp only [Cpu.tickTimer]
    rw [if_neg hc, if_neg h]

/-- The cadence at the default 500 Hz clock rate: round(500/60) = 8. -/
theorem cadence_500 : cadence 500 = 8 := by
  have h : rustRound ((1 / 60 : ℚ) / (1 / 500)) = 8 := by
    norm_num [rustRound]
  rw [cadence, h]
  rfl

/-- Claim C10: a fetched opcode with high nibble 0 whose low byte is
neither 0xE0 (CLS) nor 0xEE (RET) executes the legacy SYS opcode as a jump:
tick sets PC to the 12-bit address nnn of the fetched word, rather than
treating it as a no-op or an illegal-instruction fault. -/
theorem sys_jump (r : ℕ) (s : Cpu) (hi lo : ℕ)
    (h_hold : s.hold_flag = false)
    (h_hi : ramGetF s.ram.data s.pc = some hi)
    (h_nib : (hi &&& 0xF0) >>> 4 = 0x0)
    (h_lo : ramGetF s.ram.data (s.pc + 1) = some lo)
    (h_ne1 : lo ≠ 0xE0) (h_ne2 : lo ≠ 0xEE)
    (h_cad : ¬cadence s.clock_speed = 0) :
    ∃ s1, s.tick r = some s1 ∧ s1.pc = ((hi <<< 8) ||| lo) &&& 0x0FFF := by
  have hexec : s.tickExec r = some ({ s with pc := ((hi <<< 8) ||| lo) &&& 0x0FFF, inst := (hi <<< 8) ||| lo } : Cpu) := by
    unfold Cpu.tickExec Cpu.dispatch Cpu.sys
    simp [h_hold, h_hi, h_lo, h_nib, h_ne1, h_ne2]
  obtain ⟨s2, ht, hpc, _, _, _⟩ :=
    tickTimer_fields ({ s with pc := ((hi <<< 8) ||| lo) &&& 0x0FFF, inst := (hi <<< 8) ||| lo } : Cpu) h_cad
  refine ⟨s2, ?_, ?_⟩
  · unfold Cpu.tick
    simp only [hexec]
    exact ht
  · exact hpc

/-- The cadence at 500 Hz is nonzero. -/
theorem cadence_500_ne : ¬cadence 500 = 0 := by
  simp [cadence_500]

/-- Witness for sys_jump: the fresh 500 Hz CPU fetches the zero opcode at
0x200 (memory above the fonts is zero) and jumps to address 0. -/
theorem sys_jump_witness :
    ∃ s1, (Cpu.new 500).tick 0 = some s1 ∧ s1.pc = ((0 <<< 8) ||| 0) &&& 0x0FFF :=
  sys_jump 0 (Cpu.new 500) 0 0 rfl (by decide) (by decide) (by decide)
    (by decide) (by decide) cadence_500_ne

/-- Claim C8: the wait-for-key stall.  For a state s about to fetch an
Fx0A opcode with no key held, tick sets the hold flag and leaves the
registers alone, with PC already advanced past the stalled instruction; for
a holding state t with no key held, tick preserves PC, registers, the hold
flag and the latched instruction; for a holding state u whose first held
key is k, tick clears the hold flag, stores k into the register named by
the latched instruction and keeps PC at the following instruction - all
without re-fetching. -/
theorem key_wait_stall (r : ℕ) (s t u : Cpu) (k : Fin 16) (hi : ℕ)
    (hs_hold : s.hold_flag = false)
    (hs_hi : ramGetF s.ram.data s.pc = some hi)
    (hs_nib : (hi &&& 0xF0) >>> 4 = 0xF)
    (hs_lo : ramGetF s.ram.data (s.pc + 1) = some 0x0A)
    (hs_key : get_pressed_key s.pressed_keys = none)
    (hs_cad : ¬cadence s.clock_speed = 0)
    (ht_hold : t.hold_flag = true)
    (ht_key : get_pressed_key t.pressed_keys = none)
    (ht_cad : ¬cadence t.clock_speed = 0)
    (hu_hold : u.hold_flag = true)
    (hu_key : get_pressed_key u.pressed_keys = some k)
    (hu_cad : ¬cadence u.clock_speed = 0) :
    (∃ s1, s.tick r = some s1 ∧ s1.hold_flag = true ∧ s1.pc = s.pc + 2 ∧
      s1.v = s.v ∧ s1.inst = (hi <<< 8) ||| 0x0A) ∧
    (∃ t1, t.tick r = some t1 ∧ t1.hold_flag = true ∧ t1.pc = t.pc ∧
      t1.v = t.v ∧ t1.inst = t.inst) ∧
    (∃ u1, u.tick r = some u1 ∧ u1.hold_flag = false ∧ u1.pc = u.pc ∧
      u1.inst = u.inst ∧ u1.v = Function.update u.v (instX u.inst) k.val) := by
  refine ⟨?_, ?_, ?_⟩
  · have hexecA : s.tickExec r = some ({ s with pc := s.pc + 1 + 1, inst := (hi <<< 8) ||| 0x0A, hold_flag := true } : Cpu) := by
      unfold Cpu.tickExec Cpu.dispatch
      simp [hs_hold, hs_hi, hs_lo, hs_nib, hs_key]
    obtain ⟨s1, ht1, hpc, hv, hh, hin⟩ :=
      tickTimer_fields ({ s with pc := s.pc + 1 + 1, inst := (hi <<< 8) ||| 0x0A, hold_flag := true } : Cpu) hs_cad
    refine ⟨s1, ?_, hh, ?_, hv, hin⟩
    · unfold Cpu.tick
      simp only [hexecA]
      exact ht1
    · have h2 : s1.pc = s.pc + 1 + 1 := hpc
      omega
  · have hexecB : t.tickExec r = some ({ t with cycle := t.cycle + 1 + 1 } : Cpu) := by
      unfold Cpu.tickExec Cpu.sleep
      simp [ht_hold, ht_key]
    obtain ⟨t1, htt, hpc, hv, hh, hin⟩ :=
      tickTimer_fields ({ t with cycle := t.cycle + 1 + 1 } : Cpu) ht_cad
    exact ⟨t1, by unfold Cpu.tick; simp only [hexecB]; exact htt, hh.trans ht_hold, hpc, hv, hin⟩
  · have hexecC : u.tickExec r = some ({ u with v := Function.update u.v (instX u.inst) k.val, hold_flag := false, cycle := u.cycle + 1 } : Cpu) := by
      unfold Cpu.tickExec Cpu.ldk Cpu.sleep
      simp [hu_hold, hu_key]
    obtain ⟨u1, htu, hpc, hv, hh, hin⟩ :=
      tickTimer_fields ({ u with v := Function.update u.v (instX u.inst) k.val, hold_flag := false, cycle := u.cycle + 1 } : Cpu) hu_cad
    exact ⟨u1, by unfold Cpu.tick; simp only [hexecC]; exact htu, hh, hpc, hin, hv⟩

/-- A CPU about to fetch the wait-for-key opcode 0xF30A with no key held. -/
def keyWaitEnterState : Cpu :=
  { Cpu.new 500 with ram := ⟨copyFromSlice Ram.new.data 0x200 [0xF3, 0x0A]⟩ }

/-- A stalled CPU (hold flag set, instruction latch 0xF30A) with no key
held. -/
def keyWaitHoldState : Cpu :=
  { Cpu.new 500 with hold_flag := true, inst := 0xF30A }

/-- A stalled CPU at the first tick where key 7 is held. -/
def keyWaitResumeState : Cpu :=
  { Cpu.new 500 with hold_flag := true, inst := 0xF30A, pressed_keys := fun j => j == 7 }

/-- Witness for key_wait_stall at three concrete states: entering the
stall on 0xF30A, holding with no key, and resuming on key 7. -/
theorem key_wait_stall_witness :
    (∃ s1, keyWaitEnterState.tick 0 = some s1 ∧ s1.hold_flag = true ∧
      s1.pc = keyWaitEnterState.pc + 2 ∧ s1.v = keyWaitEnterState.v ∧
      s1.inst = (0xF3 <<< 8) ||| 0x0A) ∧
    (∃ t1, keyWaitHoldState.tick 0 = some t1 ∧ t1.hold_flag = true ∧
      t1.pc = keyWaitHoldState.pc ∧ t1.v = keyWaitHoldState.v ∧
      t1.inst = keyWaitHoldState.inst) ∧
    (∃ u1, keyWaitResumeState.tick 0 = some u1 ∧ u1.hold_flag = false ∧
      u1.pc = keyWaitResumeState.pc ∧ u1.inst = keyWaitResumeState.inst ∧
      u1.v = Function.update keyWaitResumeState.v
        (instX keyWaitResumeState.inst) (7 : Fin 16).val) :=
  key_wait_stall 0 keyWaitEnterState keyWaitHoldState keyWaitResumeState 7 0xF3
    rfl (by decide) (by decide) (by decide) (by decide) cadence_500_ne
    rfl (by decide) cadence_500_ne
    rfl (by decide) cadence_500_ne

/-- Generic form of the innermost draw operation over an explicit list of
(pixel, sprite bit) pairs; the nested drw loops reduce to a fold of
drawBit over such a list. -/
def drawBits : List ((ℕ × ℕ) × Bool) → Screen → Bool → Option (Screen × Bool)
  | [], scr, flag => some (scr, flag)
  | q :: l, scr, flag =>
    match drawBit scr flag q.1.1 q.1.2 q.2 with
    | none => none
    | some (scr1, flag1) => drawBits l scr1 flag1

/-- The (pixel, bit) pairs a draw of n sprite rows touches, in loop order. -/
def spriteList (ram : Fin 4096 → ℕ) (i0 vx vy n : ℕ) : List ((ℕ × ℕ) × Bool) :=
  (List.range n).flatMap fun i =>
    (List.range 8).map fun j => ((wrapY vy i, wrapX vx j), byteBit (ramD ram (i0 + i)) j)

/-- The sprite bit the draw XORs into a given pixel (false when the pixel
is untouched): the bit of the first list entry at that pixel. -/
def maskBit (l : List ((ℕ × ℕ) × Bool)) (Y : Fin 32) (X : Fin 64) : Bool :=
  (l.find? fun q => q.1.1 == (Y : ℕ) && q.1.2 == (X : ℕ)).elim false Prod.snd

/-- Total pixel read, false out of range (used only in range). -/
def scrD (scr : Screen) (y x : ℕ) : Bool :=
  if hy : y < 32 then if hx : x < 64 then scr ⟨y, hy⟩ ⟨x, hx⟩ else false else false

theorem scrD_fin (scr : Screen) (Y : Fin 32) (X : Fin 64) :
    scrD scr (Y : ℕ) (X : ℕ) = scr Y X := by
  simp [scrD, Y.isLt, X.isLt]

theorem if_true_else_bool (c d : Bool) : (if c then true else d) = (d || c) := by
  cases c <;> simp

theorem screen_update_read (scr : Screen) (y : Fin 32) (x : Fin 64) (b : Bool)
    (Y : Fin 32) (X : Fin 64) :
    Function.update scr y (Function.update (scr y) x b) Y X =
      if Y = y ∧ X = x then b else scr Y X := by
  by_cases hY : Y = y
  · subst hY
    rw [Function.update_same]
    by_cases hX : X = x
    · subst hX
      rw [Function.update_same, if_pos ⟨rfl, rfl⟩]
    · rw [Function.update_noteq hX, if_neg (by tauto)]
  · rw [Function.update_noteq hY, if_neg (by tauto)]

theorem any_congr_mem {α : Type} (l : List α) (p q : α → Bool)
    (h : ∀ a ∈ l, p a = q a) : l.any p = l.any q := by
  induction l with
  | nil => rfl
  | cons a l ih =>
    simp only [List.any_cons]
    rw [h a (by simp), ih (fun b hb => h b (by simp [hb]))]

theorem maskBit_cons (q : (ℕ × ℕ) × Bool) (l : List ((ℕ × ℕ) × Bool))
    (Y : Fin 32) (X : Fin 64) :
    maskBit (q :: l) Y X =
      if q.1.1 = (Y : ℕ) ∧ q.1.2 = (X : ℕ) then q.2 else maskBit l Y X := by
  by_cases h : q.1.1 = (Y : ℕ) ∧ q.1.2 = (X : ℕ)
  · obtain ⟨h1, h2⟩ := h
    simp [maskBit, List.find?_cons, h1, h2]
  · rw [if_neg h]
    have hb : (q.1.1 == (Y : ℕ) && q.1.2 == (X : ℕ)) = false := by
      rw [Bool.eq_false_iff]
      intro hcontra
      rw [Bool.and_eq_true, beq_iff_eq, beq_iff_eq] at hcontra
      exact h hcontra
    simp [maskBit, List.find?_cons, hb]

theorem maskBit_eq_false (l : List ((ℕ × ℕ) × Bool)) (Y : Fin 32) (X : Fin 64)
    (h : ∀ q ∈ l, ¬(q.1.1 = (Y : ℕ) ∧ q.1.2 = (X : ℕ))) :
    maskBit l Y X = false := by
  unfold maskBit
  rw [List.find?_eq_none.mpr ?_]
  · rfl
  intro q hq
  rw [Bool.and_eq_true, beq_iff_eq, beq_iff_eq]
  exact h q hq

theorem maskBit_true (l : List ((ℕ × ℕ) × Bool)) (Y : Fin 32) (X : Fin 64)
    (h : maskBit l Y X = true) :
    ∃ q ∈ l, q.1.1 = (Y : ℕ) ∧ q.1.2 = (X : ℕ) ∧ q.2 = true := by
  unfold maskBit at h
  cases hf : l.find? fun q => q.1.1 == (Y : ℕ) && q.1.2 == (X : ℕ) with
  | none =>
    rw [hf] at h
    simp at h
  | some q =>
    rw [hf] at h
    have hp := List.find?_some hf
    rw [Bool.and_eq_true, beq_iff_eq, beq_iff_eq] at hp
    exact ⟨q, List.mem_of_find?_eq_some hf, hp.1, hp.2, by simpa using h⟩

theorem pairwise_flatMap {α β : Type} (R : β → β → Prop) (l : List α) (f : α → List β)
    (h1 : ∀ a ∈ l, (f a).Pairwise R)
    (h2 : l.Pairwise fun a a2 => ∀ x ∈ f a, ∀ y ∈ f a2, R x y) :
    (l.flatMap f).Pairwise R := by
  induction l with
  | nil => simp
  | cons a l ih =>
    rw [List.flatMap_cons, List.pairwise_append]
    obtain ⟨hhead, htail⟩ := List.pairwise_cons.mp h2
    refine ⟨h1 a (by simp), ih (fun b hb => h1 b (by simp [hb])) htail, ?_⟩
    intro x hx y hy
    obtain ⟨a2, ha2, hy2⟩ := List.mem_flatMap.mp hy
    exact hhead a2 ha2 x hx y hy2

theorem wrapY_lt (vy i : ℕ) (hvy : vy < 32) (hi : i < 16) : wrapY vy i < 32 := by
  unfold wrapY DISPLAY_HEIGHT
  split <;> omega

theorem wrapX_lt (vx j : ℕ) (hvx : vx < 64) (hj : j < 8) : wrapX vx j < 64 := by
  unfold wrapX DISPLAY_WIDTH
  split <;> omega

theorem wrapY_inj (vy : ℕ) (hvy : vy < 32) (i i2 : ℕ) (hi : i < 16) (hi2 : i2 < 16)
    (h : wrapY vy i = wrapY vy i2) : i = i2 := by
  unfold wrapY DISPLAY_HEIGHT at h
  split at h <;> split at h <;> omega

theorem wrapX_inj (vx : ℕ) (hvx : vx < 64) (j j2 : ℕ) (hj : j < 8) (hj2 : j2 < 8)
    (h : wrapX vx j = wrapX vx j2) : j = j2 := by
  unfold wrapX DISPLAY_WIDTH at h
  split at h <;> split at h <;> omega

theorem ramGetF_eq (ram : Fin 4096 → ℕ) (a : ℕ) (h : a < 4096) :
    ramGetF ram a = some (ramD ram a) := by
  simp [ramGetF, ramD, h]

/-- The inner bit loop is the generic fold over its row's pairs. -/
theorem drwBits_eq_drawBits (vx y byte : ℕ) (js : List ℕ) (scr : Screen) (flag : Bool) :
    drwBits vx y byte js scr flag =
      drawBits (js.map fun j => ((y, wrapX vx j), byteBit byte j)) scr flag := by
  induction js generalizing scr flag with
  | nil => rfl
  | cons j js ih =>
    simp only [drwBits, List.map_cons, drawBits]
    cases drawBit scr flag y (wrapX vx j) (byteBit byte j) with
    | none => rfl
    | some p => exact ih p.1 p.2

theorem drawBits_append (l1 l2 : List ((ℕ × ℕ) × Bool)) (scr : Screen) (flag : Bool) :
    drawBits (l1 ++ l2) scr flag =
      match drawBits l1 scr flag with
      | none => none
      | some (scr1, flag1) => drawBits l2 scr1 flag1 := by
  induction l1 generalizing scr flag with
  | nil => rfl
  | cons q l1 ih =>
    simp only [List.cons_append, drawBits]
    cases drawBit scr flag q.1.1 q.1.2 q.2 with
    | none => rfl
    | some p => exact ih p.1 p.2

/-- The nested row/bit loops of drw are the generic fold over the flattened
pair list, provided every sprite byte read is in range. -/
theorem drwRows_eq_drawBits (ram : Fin 4096 → ℕ) (i0 vx vy : ℕ) (is' : List ℕ)
    (scr : Screen) (flag : Bool) (h : ∀ i ∈ is', i0 + i < 4096) :
    drwRows ram i0 vx vy is' scr flag =
      drawBits (is'.flatMap fun i => (List.range 8).map fun j =>
        ((wrapY vy i, wrapX vx j), byteBit (ramD ram (i0 + i)) j)) scr flag := by
  induction is' generalizing scr flag with
  | nil => rfl
  | cons i is' ih =>
    simp only [drwRows, List.flatMap_cons]
    rw [ramGetF_eq ram (i0 + i) (h i (by simp))]
    dsimp only
    rw [drwBits_eq_drawBits, drawBits_append]
    cases drawBits ((List.range 8).map fun j =>
        ((wrapY vy i, wrapX vx j), byteBit (ramD ram (i0 + i)) j)) scr flag with
    | none => rfl
    | some p => exact ih p.1 p.2 fun i2 h2 => h i2 (by simp [h2])

/-- Specialisation to the range list of the draw loop and the sprite list. -/
theorem drwRows_spriteList (ram : Fin 4096 → ℕ) (i0 vx vy n : ℕ)
    (scr : Screen) (flag : Bool) (h : i0 + n ≤ 4096) :
    drwRows ram i0 vx vy (List.range n) scr flag =
      drawBits (spriteList ram i0 vx vy n) scr flag := by
  unfold spriteList
  exact drwRows_eq_drawBits ram i0 vx vy (List.range n) scr flag
    fun i hi => by rw [List.mem_range] at hi; omega

/-- Characterisation of the generic bit fold on a list of in-range,
pairwise-distinct pixels: it succeeds, the final screen is the pointwise
XOR of the start screen with the sprite mask, and the final flag records
whether some touched pixel was set where the sprite bit is set. -/
theorem drawBits_char (l : List ((ℕ × ℕ) × Bool)) (scr : Screen) (flag : Bool)
    (hrange : ∀ q ∈ l, q.1.1 < 32 ∧ q.1.2 < 64)
    (hdisj : l.Pairwise fun q q2 => q.1 ≠ q2.1) :
    ∃ scr2 flag2, drawBits l scr flag = some (scr2, flag2) ∧
      (∀ (Y : Fin 32) (X : Fin 64), scr2 Y X = Bool.xor (scr Y X) (maskBit l Y X)) ∧
      flag2 = (flag || l.any fun q => scrD scr q.1.1 q.1.2 && q.2) := by
  induction l generalizing scr flag with
  | nil =>
    refine ⟨scr, flag, rfl, ?_, by simp⟩
    intro Y X
    simp [maskBit]
  | cons q l ih =>
    obtain ⟨⟨y, x⟩, b⟩ := q
    obtain ⟨hy, hx⟩ := hrange ((y, x), b) (by simp)
    obtain ⟨hhead, htail⟩ := List.pairwise_cons.mp hdisj
    have hdb : drawBit scr flag y x b =
        some (Function.update scr ⟨y, hy⟩
            (Function.update (scr ⟨y, hy⟩) ⟨x, hx⟩ (Bool.xor (scr ⟨y, hy⟩ ⟨x, hx⟩) b)),
          if scr ⟨y, hy⟩ ⟨x, hx⟩ && b then true else flag) := by
      unfold drawBit screenGet screenSet
      rw [dif_pos hy, dif_pos hx]
      dsimp only
      rw [dif_pos hy, dif_pos hx]
    obtain ⟨scr2, flag2, heq, hpt, hfl⟩ := ih
      (Function.update scr ⟨y, hy⟩
        (Function.update (scr ⟨y, hy⟩) ⟨x, hx⟩ (Bool.xor (scr ⟨y, hy⟩ ⟨x, hx⟩) b)))
      (if scr ⟨y, hy⟩ ⟨x, hx⟩ && b then true else flag)
      (fun q2 h2 => hrange q2 (by simp [h2])) htail
    refine ⟨scr2, flag2, ?_, ?_, ?_⟩
    · simp only [drawBits, hdb]
      exact heq
    · intro Y X
      rw [hpt Y X, screen_update_read, maskBit_cons]
      by_cases hYX : Y = (⟨y, hy⟩ : Fin 32) ∧ X = (⟨x, hx⟩ : Fin 64)
      · obtain ⟨hY, hX⟩ := hYX
        subst hY
        subst hX
        rw [if_pos ⟨rfl, rfl⟩, if_pos ⟨rfl, rfl⟩]
        rw [maskBit_eq_false l _ _ ?_]
        · simp
        intro q2 h2 hcontra
        exact hhead q2 h2 (Prod.ext hcontra.1 hcontra.2).symm
      · have hYX2 : ¬(((y, x) : ℕ × ℕ).1 = (Y : ℕ) ∧ ((y, x) : ℕ × ℕ).2 = (X : ℕ)) := by
          intro hcontra
          exact hYX ⟨Fin.ext hcontra.1.symm, Fin.ext hcontra.2.symm⟩
        rw [if_neg hYX, if_neg hYX2]
    · rw [hfl, if_true_else_bool]
      simp only [List.any_cons]
      have hAny : (l.any fun q2 =>
          scrD (Function.update scr ⟨y, hy⟩
            (Function.update (scr ⟨y, hy⟩) ⟨x, hx⟩ (Bool.xor (scr ⟨y, hy⟩ ⟨x, hx⟩) b)))
            q2.1.1 q2.1.2 && q2.2) =
          (l.any fun q2 => scrD scr q2.1.1 q2.1.2 && q2.2) := by
        apply any_congr_mem
        intro q2 h2
        obtain ⟨h2y, h2x⟩ := hrange q2 (by simp [h2])
        have hne := hhead q2 h2
        simp only [scrD, dif_pos h2y, dif_pos h2x]
        rw [screen_update_read, if_neg]
        intro hcontra
        obtain ⟨hc1, hc2⟩ := hcontra
        rw [Fin.mk.injEq] at hc1 hc2
        exact hne (Prod.ext hc1.symm hc2.symm)
      rw [hAny]
      rw [show scrD scr y x = scr ⟨y, hy⟩ ⟨x, hx⟩ from by simp [scrD, hy, hx]]
      rw [Bool.or_assoc]

/-- Every pixel of the sprite list is in range when the start coordinates
are on screen and the height is a nibble value. -/
theorem spriteList_range (ram : Fin 4096 → ℕ) (i0 vx vy n : ℕ)
    (hvx : vx < 64) (hvy : vy < 32) (hn : n ≤ 15) :
    ∀ q ∈ spriteList ram i0 vx vy n, q.1.1 < 32 ∧ q.1.2 < 64 := by
  intro q hq
  obtain ⟨i, hi, hq2⟩ := List.mem_flatMap.mp hq
  obtain ⟨j, hj, rfl⟩ := List.mem_map.mp hq2
  rw [List.mem_range] at hi hj
  exact ⟨wrapY_lt vy i hvy (by omega), wrapX_lt vx j hvx (by omega)⟩

/-- Distinct loop iterations of a draw touch distinct pixels: the wrap maps
are injective on the loop ranges. -/
theorem spriteList_pairwise (ram : Fin 4096 → ℕ) (i0 vx vy n : ℕ)
    (hvx : vx < 64) (hvy : vy < 32) (hn : n ≤ 15) :
    (spriteList ram i0 vx vy n).Pairwise fun q q2 => q.1 ≠ q2.1 := by
  unfold spriteList
  apply pairwise_flatMap
  · intro i hi
    rw [List.pairwise_map]
    refine List.Pairwise.imp_of_mem ?_ (List.pairwise_lt_range 8)
    intro j j2 hj hj2 hlt hcontra
    rw [List.mem_range] at hj hj2
    have h2 : (wrapY vy i, wrapX vx j) = (wrapY vy i, wrapX vx j2) := hcontra
    rw [Prod.mk.injEq] at h2
    have := wrapX_inj vx hvx j j2 hj hj2 h2.2
    omega
  · refine List.Pairwise.imp_of_mem ?_ (List.pairwise_lt_range n)
    intro i i2 hi hi2 hlt p hp p2 hp2 hcontra
    rw [List.mem_range] at hi hi2
    obtain ⟨j, hj, rfl⟩ := List.mem_map.mp hp
    obtain ⟨j2, hj2, rfl⟩ := List.mem_map.mp hp2
    have h2 : (wrapY vy i, wrapX vx j) = (wrapY vy i2, wrapX vx j2) := hcontra
    rw [Prod.mk.injEq] at h2
    have := wrapY_inj vy hvy i i2 (by omega) (by omega) h2.1
    omega

/-- drw under in-range start coordinates: it succeeds, the new screen is
the pointwise XOR with the sprite mask, and VF is set from the collision
predicate over the original screen. -/
theorem drw_ok (s : Cpu) (vx vy : Fin 16) (n : ℕ)
    (hx : s.v vx < 64) (hy : s.v vy < 32) (hn : n ≤ 15) (hI : s.i + n ≤ 4096) :
    ∃ scr2 flag2,
      s.drw vx vy n = some ({ s with display := ⟨scr2⟩, v := Function.update s.v 15 (if flag2 then 1 else 0) } : Cpu) ∧
      (∀ (Y : Fin 32) (X : Fin 64), scr2 Y X =
        Bool.xor (s.display.screen Y X)
          (maskBit (spriteList s.ram.data s.i (s.v vx) (s.v vy) n) Y X)) ∧
      flag2 = ((spriteList s.ram.data s.i (s.v vx) (s.v vy) n).any
        fun q => scrD s.display.screen q.1.1 q.1.2 && q.2) := by
  obtain ⟨scr2, flag2, heq, hpt, hfl⟩ :=
    drawBits_char (spriteList s.ram.data s.i (s.v vx) (s.v vy) n) s.display.screen false
      (spriteList_range _ _ _ _ _ hx hy hn) (spriteList_pairwise _ _ _ _ _ hx hy hn)
  refine ⟨scr2, flag2, ?_, hpt, by simpa using hfl⟩
  unfold Cpu.drw
  rw [if_neg (by omega : ¬n > 15)]
  rw [drwRows_spriteList s.ram.data s.i (s.v vx) (s.v vy) n s.display.screen false hI]
  rw [heq]

/-- Claim C9: drawing the same sprite twice in succession - memory, I, Vx
and Vy unchanged between the draws, which requires the coordinate registers
to be distinct from VF since the draw overwrites VF - restores the
framebuffer exactly, and the second draw sets VF to 1 whenever the first
draw set at least one pixel. -/
theorem drw_double_xor (s : Cpu) (vx vy : Fin 16) (n : ℕ)
    (hx : s.v vx < 64) (hy : s.v vy < 32) (hn : n ≤ 15)
    (hI : s.i + n ≤ 4096) (hvx : vx ≠ 15) (hvy : vy ≠ 15) :
    ∃ s1 s2, s.drw vx vy n = some s1 ∧ s1.drw vx vy n = some s2 ∧
      (∀ (Y : Fin 32) (X : Fin 64), s2.display.screen Y X = s.display.screen Y X) ∧
      ((∃ (Y : Fin 32) (X : Fin 64),
          s.display.screen Y X = false ∧ s1.display.screen Y X = true) →
        s2.v 15 = 1) := by
  obtain ⟨scr1, flag1, hda, hpt1, hfl1⟩ := drw_ok s vx vy n hx hy hn hI
  set s1 : Cpu := ({ s with display := ⟨scr1⟩, v := Function.update s.v 15 (if flag1 then 1 else 0) } : Cpu) with hs1
  have hvx1 : s1.v vx = s.v vx := Function.update_noteq hvx _ _
  have hvy1 : s1.v vy = s.v vy := Function.update_noteq hvy _ _
  obtain ⟨scr2, flag2, hdb, hpt2, hfl2⟩ := drw_ok s1 vx vy n
    (by rw [hvx1]; exact hx) (by rw [hvy1]; exact hy) hn hI
  have hsl : spriteList s1.ram.data s1.i (s1.v vx) (s1.v vy) n =
      spriteList s.ram.data s.i (s.v vx) (s.v vy) n := by
    rw [hvx1, hvy1, hs1]
  have hps1 : s1.display.screen = scr1 := by rw [hs1]
  rw [hsl, hps1] at hpt2 hfl2
  refine ⟨s1, _, hda, hdb, ?_, ?_⟩
  · intro Y X
    show scr2 Y X = s.display.screen Y X
    rw [hpt2 Y X, hpt1 Y X]
    simp [Bool.xor_assoc]
  · rintro ⟨Y, X, hfalse, htrue⟩
    rw [hps1] at htrue
    have hmask : maskBit (spriteList s.ram.data s.i (s.v vx) (s.v vy) n) Y X = true := by
      have hscr1 := hpt1 Y X
      rw [hscr1, hfalse] at htrue
      simpa using htrue
    obtain ⟨qf, hqmem, hq1, hq2, hqb⟩ := maskBit_true _ _ _ hmask
    show Function.update s1.v 15 (if flag2 then 1 else 0) 15 = 1
    rw [Function.update_same]
    have hflag : flag2 = true := by
      rw [hfl2, List.any_eq_true]
      refine ⟨qf, hqmem, ?_⟩
      simp [hq1, hq2, scrD_fin, htrue, hqb]
    rw [hflag]
    rfl

/-- Witness for drw_double_xor: the fresh CPU draws the one-row sprite at
I = 0 (the first font byte) at coordinates (V0, V1) = (0, 0), twice. -/
theorem drw_double_xor_witness :
    ∃ s1 s2, (Cpu.new 500).drw 0 1 1 = some s1 ∧ s1.drw 0 1 1 = some s2 ∧
      (∀ (Y : Fin 32) (X : Fin 64),
        s2.display.screen Y X = (Cpu.new 500).display.screen Y X) ∧
      ((∃ (Y : Fin 32) (X : Fin 64),
          (Cpu.new 500).display.screen Y X = false ∧ s1.display.screen Y X = true) →
        s2.v 15 = 1) :=
  drw_double_xor (Cpu.new 500) 0 1 1 (by decide) (by decide) (by decide)
    (by decide) (by decide) (by decide)
